import Mathlib

/-!
Shallow embedding of the `lazy` async-iterator library.

Pure sequence operators are embedded as functions on the list of values an
iteration yields (the yield trace of the generator the operator builds).
Numbers that the JavaScript code may turn into `undefined` or `NaN` are
embedded as the small value type `JsVal`.  The push-to-pull bridge
(`Producer`) is embedded as an explicit state machine over a store of
single-settlement promises, with consumer scheduling points made explicit
as events.
-/

/-- JavaScript numeric values as far as the operators need them:
a number, `undefined` (a missing iterator value), or `NaN`
(the result of arithmetic on `undefined`). -/
inductive JsVal
  | num (n : Int)
  | undef
  | nan
deriving DecidableEq, Repr

/-- JavaScript `+` on `JsVal`: adding anything to `undefined`/`NaN` is `NaN`. -/
def jsAdd : JsVal → JsVal → JsVal
  | .num a, .num b => .num (a + b)
  | _, _ => .nan

/-- Source `range(start, end)`: `let i = start; while (i <= end) yield i`
(with the default identity mapper).  Yield trace of the generator. -/
def rangeJS (s e : Int) : List Int :=
  if s ≤ e then s :: rangeJS (s + 1) e else []
termination_by (e + 1 - s).toNat
decreasing_by simp_wf; omega

/-- The value obtained by awaiting `gen.next()` of an iterator with the given
remaining elements: the next element, or `undefined` once the iterator is done. -/
def headOrUndef : List JsVal → JsVal
  | [] => .undef
  | b :: _ => b

/-- What kind of generator backs a `Lazy`'s iterator: `range`/`fromArray`
wrap a plain `function*` whose `next()` returns a `{value, done}` node
synchronously, while every `async function*`-built `Lazy` (the outputs of
`map`, `filter`, `take`, `tap`, `flatMap`, `delay`, `fromPromise`,
`fromEvent`, and a `Producer`) returns a Promise from `next()`. -/
inductive GenKind
  | syncGen
  | asyncGen
deriving DecidableEq, Repr

/-- The value `merge`'s guard reads as `nodeA.done`, given the elements A has
left: a sync iterator node carries the real `done` flag, but on a Promise
the property access yields `undefined`, which is falsy — so for an
async-generator upstream the guard `!nodeA.done` is always true. -/
def doneRead : GenKind → List JsVal → Bool
  | .syncGen, as => as.isEmpty
  | .asyncGen, _ => false

/-- Source `merge(fn, iterA, iterB)`: pre-pulls one node from each iterator
and loops `while (!nodeA.done)`, each iteration awaiting both nodes (an
exhausted iterator's awaited `value` is `undefined`), yielding
`fn(aValue, bValue)` and re-pulling both.  `kA` is the kind of generator
backing A, which decides what the guard's `nodeA.done` read sees; `fuel`
bounds how many loop iterations are observed.  Returns the values yielded
within `fuel` iterations, and `true` when the loop was still live when fuel
ran out (`false` when the guard exited the loop). -/
def mergeRun (kA : GenKind) (f : JsVal → JsVal → JsVal) :
    Nat → List JsVal → List JsVal → List JsVal × Bool
  | 0, _, _ => ([], true)
  | fuel + 1, as, bs =>
    if doneRead kA as then ([], false)
    else
      let step := mergeRun kA f fuel as.tail bs.tail
      (f (headOrUndef as) (headOrUndef bs) :: step.1, step.2)

/-- Source `take(num, iter)`:
`let remaining = num; for await (v of iter) { if (!remaining) break; yield v; remaining--; }`.
Returns the yield trace together with the number of values pulled from the
upstream iterator.  The pull of `v` happens before the `!remaining` check,
and `!remaining` is true exactly when the counter is `0`. -/
def takeJS (n : Int) : List α → List α × Nat
  | [] => ([], 0)
  | v :: rest =>
    if n = 0 then ([], 1)
    else
      let p := takeJS (n - 1) rest
      (v :: p.1, p.2 + 1)

/-- Source `fromArray(arr)`: `for (let v of arr) yield v`. -/
def fromArrayJS : List α → List α
  | [] => []
  | v :: rest => v :: fromArrayJS rest

/-- Accumulator loop of `toArray`: `for await (let v of iter) list.push(v)`. -/
def toArrayGo (list : List α) : List α → List α
  | [] => list
  | v :: rest => toArrayGo (list ++ [v]) rest

/-- Source `toArray(iter)`: starts from the empty list and pushes
every value of the iteration in order. -/
def toArrayJS (iter : List α) : List α := toArrayGo [] iter

/-- Loop body of `skipWhile(pred, iter)` from the source, parameterised by the
`hasSkipped` flag: each iteration first yields `v` when `hasSkipped` is set,
then `continue`s when `pred(v)` holds, else sets the flag and yields `v`. -/
def skipWhileGo (p : α → Bool) (hasSkipped : Bool) : List α → List α
  | [] => []
  | v :: rest =>
    (if hasSkipped then [v] else []) ++
      (if p v then skipWhileGo p hasSkipped rest
       else v :: skipWhileGo p true rest)

/-- Source `skipWhile(pred, iter)`; `hasSkipped` starts false. -/
def skipWhileJS (p : α → Bool) (xs : List α) : List α := skipWhileGo p false xs

/-- Loop body of `skipUntil(pred, iter)` from the source: identical to
`skipWhile`'s loop except the `continue` guard is `!pred(v)`. -/
def skipUntilGo (p : α → Bool) (hasSkipped : Bool) : List α → List α
  | [] => []
  | v :: rest =>
    (if hasSkipped then [v] else []) ++
      (if !p v then skipUntilGo p hasSkipped rest
       else v :: skipUntilGo p true rest)

/-- Source `skipUntil(pred, iter)`; `hasSkipped` starts false. -/
def skipUntilJS (p : α → Bool) (xs : List α) : List α := skipUntilGo p false xs

/-- The error thrown by the `Lazy` constructor when no generator is given
("You must give Lazy a generator function"). -/
inductive ConstructError
  | InvalidConstruction
deriving DecidableEq, Repr

/-- A constructed `Lazy`: it only stores the generator factory (`this._gen`). -/
structure LazySeq (γ : Type) where
  gen : γ
deriving DecidableEq, Repr

/-- The `Lazy` constructor from the source: `if (!generator) throw ...`,
otherwise store the factory.  An absent factory is `none`. -/
def makeLazy (factory : Option γ) : Except ConstructError (LazySeq γ) :=
  match factory with
  | none => .error .InvalidConstruction
  | some g => .ok ⟨g⟩

/-- State of one single-settlement promise: settle-once, so `resolve`/`reject`
on an already settled promise is a no-op. -/
inductive PromSt (α ε : Type)
  | pending
  | resolved (v : α)
  | rejected (e : ε)
deriving DecidableEq, Repr

/-- The mutable closure state of a `Producer`: the store of every promise
created so far (indexed by creation order), the index held by the `prom`
variable, the indices the captured `resolve` and `reject` handles point to,
and the `iterating` flag.  Note the source's `next` replaces `prom` and
re-captures `resolve` but never re-captures `reject`. -/
structure PState (α ε : Type) where
  store : List (PromSt α ε)
  prom : Nat
  resolveTgt : Nat
  rejectTgt : Nat
  iterating : Bool
deriving DecidableEq, Repr

/-- Resolve the promise at index `i` with `v` (no-op unless it is pending). -/
def resolveAt (store : List (PromSt α ε)) (i : Nat) (v : α) : List (PromSt α ε) :=
  match store[i]? with
  | some .pending => store.set i (.resolved v)
  | _ => store

/-- Reject the promise at index `i` with `e` (no-op unless it is pending). -/
def rejectAt (store : List (PromSt α ε)) (i : Nat) (e : ε) : List (PromSt α ε) :=
  match store[i]? with
  | some .pending => store.set i (.rejected e)
  | _ => store

/-- The `Producer` constructor: one fresh pending promise, both handles on it,
`iterating = true`. -/
def pInit : PState α ε := ⟨[.pending], 0, 0, 0, true⟩

/-- Source `Producer.next(v)`: `resolve(v); prom = new Promise((res, rej) => { resolve = res })`.
The old promise is resolved through the captured `resolve` handle, a fresh
pending promise becomes `prom`, `resolve` now points at it — but `reject`
is left pointing wherever it pointed before. -/
def pnext (v : α) (s : PState α ε) : PState α ε :=
  { store := resolveAt s.store s.resolveTgt v ++ [.pending]
    prom := s.store.length
    resolveTgt := s.store.length
    rejectTgt := s.rejectTgt
    iterating := s.iterating }

/-- Source `Producer.complete()`: `iterating = false`, nothing else. -/
def pcomplete (s : PState α ε) : PState α ε := { s with iterating := false }

/-- Source `Producer.error(err)`: `reject(err); iterating = false`.  The rejection
goes through the captured `reject` handle. -/
def perror (e : ε) (s : PState α ε) : PState α ε :=
  { s with store := rejectAt s.store s.rejectTgt e, iterating := false }

/-- How a consumer's `for await` loop over the producer can end. -/
inductive Outcome (ε : Type)
  | finished
  | errored (e : ε)
deriving DecidableEq, Repr

/-- A single consumer session over the producer's generator
`async function* () { while (iterating) yield prom }`:
the values observed so far, the index of the promise the consumer is
currently awaiting (if any), and how the loop ended (if it has). -/
structure CState (α ε : Type) where
  obs : List α
  parked : Option Nat
  term : Option (Outcome ε)
deriving DecidableEq, Repr

/-- A consumer that has not begun iterating. -/
def cInit : CState α ε := ⟨[], none, none⟩

/-- Beginning a `for await` over the producer: the generator checks
`iterating`; if false it returns at once, else it yields the promise `prom`
currently holds and the consumer parks on it. -/
def cstart (p : PState α ε) : CState α ε :=
  if p.iterating then ⟨[], some p.prom, none⟩ else ⟨[], none, some .finished⟩

/-- One microtask checkpoint for a parked consumer: if the awaited promise has
been resolved, the consumer observes its value and the generator loop runs
again (re-reading `iterating` and the current `prom`); if it was rejected,
the iteration terminates with that error; if it is still pending, nothing
happens. -/
def wake (p : PState α ε) (c : CState α ε) : CState α ε :=
  match c.term, c.parked with
  | none, some i =>
    match p.store[i]? with
    | some (.resolved v) =>
      if p.iterating then ⟨c.obs ++ [v], some p.prom, none⟩
      else ⟨c.obs ++ [v], none, some .finished⟩
    | some (.rejected e) => ⟨c.obs, none, some (.errored e)⟩
    | _ => c
  | _, _ => c

/-- Events of a producer/consumer interleaving.  `emit`/`complete`/`fail` are
the producer's synchronous calls; `start` begins the (single) consumer's
iteration; `wake` is a microtask checkpoint at which a settled awaited
promise is delivered to the consumer. -/
inductive Ev (α ε : Type)
  | start
  | emit (v : α)
  | complete
  | fail (e : ε)
  | wake
deriving DecidableEq, Repr

/-- One event applied to the producer/consumer pair. -/
def stepEv (pc : PState α ε × CState α ε) (e : Ev α ε) : PState α ε × CState α ε :=
  match e with
  | .start => (pc.1, cstart pc.1)
  | .emit v => (pnext v pc.1, pc.2)
  | .complete => (pcomplete pc.1, pc.2)
  | .fail err => (perror err pc.1, pc.2)
  | .wake => (pc.1, wake pc.1 pc.2)

/-- Run a list of events from a producer/consumer state. -/
def runEvs (evs : List (Ev α ε)) (pc : PState α ε × CState α ε) :
    PState α ε × CState α ε :=
  evs.foldl stepEv pc

/-- Fresh producer, consumer not yet iterating. -/
def pcInit : PState α ε × CState α ε := (pInit, cInit)

/-- No promise in the store has been rejected. -/
def noRejected (store : List (PromSt α ε)) : Prop :=
  ∀ st ∈ store, ∀ e, st ≠ PromSt.rejected e

/-- Invariant after the `reject` handle has gone stale: the promise the
handle points to is already resolved, no promise in the store is rejected,
and the consumer has not terminated with an error. -/
def SafeState (pc : PState α ε × CState α ε) : Prop :=
  (∃ w, pc.1.store[pc.1.rejectTgt]? = some (PromSt.resolved w)) ∧
  noRejected pc.1.store ∧
  ∀ e, pc.2.term ≠ some (Outcome.errored e)

/-- Unfolding lemma for `rangeJS` when the loop condition holds. -/
theorem rangeJS_of_le {s e : Int} (h : s ≤ e) :
    rangeJS s e = s :: rangeJS (s + 1) e := by
  rw [rangeJS]; simp [h]

/-- Unfolding lemma for `rangeJS` when the loop condition fails. -/
theorem rangeJS_of_gt {s e : Int} (h : ¬ s ≤ e) : rangeJS s e = [] := by
  rw [rangeJS]; simp [h]

/-- Model validation against the repository's own `Producer` test: a parked
consumer receives a value emitted by `next`, and the loop re-parks on the
fresh promise. -/
theorem producer_model_single_emit_delivery :
    runEvs [.start, .emit 5, .wake] (pcInit (α := Nat) (ε := Nat)) =
      (⟨[.resolved 5, .pending], 1, 1, 0, true⟩, ⟨[5], some 1, none⟩) := rfl

/-- Model validation against the repository's own `Producer` test: `error`
called before any `next` rejects the awaited promise and the consumer's
iteration terminates with that error. -/
theorem producer_model_fail_before_emit_errors :
    runEvs [.start, .fail 9, .wake] (pcInit (α := Nat) (ε := Nat)) =
      (⟨[.rejected 9], 0, 0, 0, false⟩, ⟨[], none, some (.errored 9)⟩) := rfl

/-- Evaluation: `range(1, 3)` yields `[1, 2, 3]`. -/
theorem rangeJS_one_three : rangeJS 1 3 = [1, 2, 3] := by
  rw [rangeJS_of_le (by norm_num), rangeJS_of_le (by norm_num),
    rangeJS_of_le (by norm_num), rangeJS_of_gt (by norm_num)]
  norm_num

/-- Evaluation: `range(1, 2)` yields `[1, 2]`. -/
theorem rangeJS_one_two : rangeJS 1 2 = [1, 2] := by
  rw [rangeJS_of_le (by norm_num), rangeJS_of_le (by norm_num),
    rangeJS_of_gt (by norm_num)]
  norm_num

/-- With a sync-generator A, `merge`'s loop exits via the real `done` flag:
with any fuel beyond A's length it yields one combined value per element of
A and then stops. -/
theorem mergeRun_sync_terminates (f : JsVal → JsVal → JsVal) :
    ∀ (as bs : List JsVal) (k : Nat),
      (mergeRun .syncGen f (as.length + 1 + k) as bs).1.length = as.length ∧
      (mergeRun .syncGen f (as.length + 1 + k) as bs).2 = false := by
  intro as
  induction as with
  | nil =>
    intro bs k
    have hf : ([] : List JsVal).length + 1 + k = k + 1 := by simp; omega
    rw [hf]
    simp [mergeRun, doneRead]
  | cons a rest ih =>
    intro bs k
    have hf : (a :: rest).length + 1 + k = (rest.length + 1 + k) + 1 := by
      simp; omega
    rw [hf]
    have hr := ih bs.tail k
    simp [mergeRun, doneRead, hr.1, hr.2]

/-- With an async-generator A, the guard reads `.done` off a Promise and
never sees it true: every loop iteration runs and yields a value, for any
amount of fuel. -/
theorem mergeRun_async_never_exits (f : JsVal → JsVal → JsVal) :
    ∀ (fuel : Nat) (as bs : List JsVal),
      (mergeRun .asyncGen f fuel as bs).1.length = fuel ∧
      (mergeRun .asyncGen f fuel as bs).2 = true := by
  intro fuel
  induction fuel with
  | zero => intro as bs; simp [mergeRun]
  | succ n ih =>
    intro as bs
    have hr := ih as.tail bs.tail
    simp [mergeRun, doneRead, hr.1, hr.2]

/-- The `toArray` accumulator loop appends the iteration's values. -/
theorem toArrayGo_append : ∀ (xs list : List α), toArrayGo list xs = list ++ xs := by
  intro xs
  induction xs with
  | nil => intro list; simp [toArrayGo]
  | cons v rest ih => intro list; simp [toArrayGo, ih]

/-- The yield trace of `fromArray(arr)` is `arr` itself. -/
theorem fromArrayJS_id : ∀ (xs : List α), fromArrayJS xs = xs := by
  intro xs
  induction xs with
  | nil => rfl
  | cons v rest ih => simp [fromArrayJS, ih]

/-- The two skip-prefix loops coincide once the predicate of one is the
negation of the other's, for either value of the `hasSkipped` flag. -/
theorem skipUntilGo_eq_skipWhileGo (p : α → Bool) :
    ∀ (xs : List α) (b : Bool),
      skipUntilGo p b xs = skipWhileGo (fun v => !p v) b xs := by
  intro xs
  induction xs with
  | nil => intro b; rfl
  | cons v rest ih =>
    intro b
    simp only [skipUntilGo, skipWhileGo]
    simp [ih]

/-- C1: the skip-prefix operators are claimed to yield every post-prefix value
exactly once; in fact, once the `hasSkipped` flag is set, any later value for
which the `continue` guard fails is yielded twice (once by the flag branch,
once by the fallthrough).  `skipWhile (v < 3)` on `[1,2,3,4]` yields
`[3,4,4]`, not `[3,4]`, and `skipUntil (3 ≤ v)` does the same. -/
theorem skipWhile_skipUntil_double_emission :
    skipWhileJS (fun v : Nat => decide (v < 3)) [1, 2, 3, 4] = [3, 4, 4] ∧
    skipUntilJS (fun v : Nat => decide (3 ≤ v)) [1, 2, 3, 4] = [3, 4, 4] :=
  ⟨rfl, rfl⟩

/-- C2 counterexample: `merge((a,b) => a+b, range(1,3), range(1,2))` — both
ranges are sync-generator-backed — does not yield `[2, 4]`: the loop checks
only A's exhaustion, so a third value is produced (four iterations of fuel
are more than enough for the length-3 A to exit the loop). -/
theorem merge_range_example_counterexample :
    (mergeRun .syncGen jsAdd 4
        ((rangeJS 1 3).map .num) ((rangeJS 1 2).map .num)).1 ≠
      [.num 2, .num 4] := by
  rw [rangeJS_one_three, rangeJS_one_two]
  decide

/-- C2 (amended): `merge` advances both sequences in lockstep, yielding
`combineFn(aValue, bValue)` each step.  When A is backed by a synchronous
generator (as `range`'s is), the loop stops exactly when A is exhausted —
one combined value per element of A — so, B exhausting first in the
example, the third step combines `3` with `undefined` and
`merge((a,b) => a+b, range(1,3), range(1,2))` yields `[2, 4, NaN]`.  When A
is backed by an async generator, `nodeA.done` is read off a Promise and is
`undefined`, so the loop never exits: it yields one value per iteration for
any amount of fuel. -/
theorem merge_lockstep_stops_when_A_exhausted :
    (∀ (f : JsVal → JsVal → JsVal) (as bs : List JsVal) (k : Nat),
      (mergeRun .syncGen f (as.length + 1 + k) as bs).1.length = as.length ∧
      (mergeRun .syncGen f (as.length + 1 + k) as bs).2 = false) ∧
    (∀ (f : JsVal → JsVal → JsVal) (fuel : Nat) (as bs : List JsVal),
      (mergeRun .asyncGen f fuel as bs).1.length = fuel ∧
      (mergeRun .asyncGen f fuel as bs).2 = true) ∧
    mergeRun .syncGen jsAdd 4
        ((rangeJS 1 3).map .num) ((rangeJS 1 2).map .num) =
      ([.num 2, .num 4, .nan], false) := by
  refine ⟨mergeRun_sync_terminates, mergeRun_async_never_exits, ?_⟩
  rw [rangeJS_one_three, rangeJS_one_two]
  decide

/-- C3 counterexample: `take(0)` on the one-element upstream `[1]` pulls one
value from upstream, exceeding `min(0, 1) = 0`: the loop pulls a value
before checking the remaining count. -/
theorem take_zero_pull_counterexample :
    (takeJS (0 : Int) [(1 : Nat)]).2 = 1 ∧
    ¬ ((takeJS (0 : Int) [(1 : Nat)]).2 ≤ min 0 [(1 : Nat)].length) := by
  decide

/-- C3 (amended): for every `n ≥ 0`, `take(n)` yields exactly `min(n, m)`
values from an upstream of length `m`, but pulls `min(n + 1, m)` values: when
the upstream holds more than `n` values, one extra value is pulled and
discarded by the post-pull remaining-count check (in particular `take(0)`
yields nothing yet pulls one value from a nonempty upstream). -/
theorem take_yields_min_pulls_one_extra :
    ∀ (α : Type) (n : Nat) (xs : List α),
      (takeJS (n : Int) xs).1 = xs.take n ∧
      (takeJS (n : Int) xs).2 = min (n + 1) xs.length := by
  intro α n xs
  induction xs generalizing n with
  | nil => simp [takeJS]
  | cons v rest ih =>
    cases n with
    | zero => simp [takeJS]
    | succ m =>
      have hne : ((m + 1 : Nat) : Int) ≠ 0 := by push_cast; omega
      have hcast : ((m + 1 : Nat) : Int) - 1 = ((m : Nat) : Int) := by
        push_cast; ring
      obtain ⟨h1, h2⟩ := ih m
      simp only [takeJS, hne, if_false, hcast]
      refine ⟨by simp [h1], ?_⟩
      simp only [h2, List.length_cons]
      omega

/-- C7: `toArray(fromArray(xs))` is `xs`, element for element, in order. -/
theorem toArray_fromArray_id :
    ∀ (α : Type) (xs : List α), toArrayJS (fromArrayJS xs) = xs := by
  intro α xs
  rw [toArrayJS, fromArrayJS_id, toArrayGo_append]
  simp

/-- C8: constructing a `Lazy` without a generator factory fails with
`InvalidConstruction`; with a factory it succeeds, the factory is stored, and
nothing else is checked. -/
theorem lazy_construction_validation :
    (∀ (γ : Type), makeLazy (none : Option γ) = .error .InvalidConstruction) ∧
    (∀ (γ : Type) (g : γ), makeLazy (some g) = .ok ⟨g⟩) :=
  ⟨fun _ => rfl, fun _ _ => rfl⟩

/-- C9: for negative `n`, `take(n)` is the identity transform: the JS
truthiness guard `!remaining` only fires at `0`, which a negative counter
never reaches, so every upstream value is pulled and yielded. -/
theorem take_negative_is_identity :
    ∀ (α : Type) (xs : List α) (n : Int), n < 0 →
      takeJS n xs = (xs, xs.length) := by
  intro α xs
  induction xs with
  | nil => intro n hn; simp [takeJS]
  | cons v rest ih =>
    intro n hn
    have hne : n ≠ 0 := by omega
    have := ih (n - 1) (by omega)
    simp [takeJS, hne, this]

/-- C9 witness: `take(-1)` on `[1, 2, 3]` yields all three values. -/
theorem take_negative_is_identity_check :
    (-1 : Int) < 0 ∧ takeJS (-1 : Int) [1, 2, 3] = ([1, 2, 3], 3) :=
  ⟨by norm_num, take_negative_is_identity Nat [1, 2, 3] (-1) (by norm_num)⟩

/-- C10: `skipUntil(pred)` yields exactly what `skipWhile(v => !pred(v))`
yields, on every upstream: the two loops are identical up to negating the
`continue` guard. -/
theorem skipUntil_eq_skipWhile_negated :
    ∀ (α : Type) (p : α → Bool) (xs : List α),
      skipUntilJS p xs = skipWhileJS (fun v => !p v) xs := by
  intro α p xs
  exact skipUntilGo_eq_skipWhileGo p xs false

/-- Running a concatenation of event lists runs them in sequence. -/
theorem runEvs_append (l₁ l₂ : List (Ev α ε)) (pc : PState α ε × CState α ε) :
    runEvs (l₁ ++ l₂) pc = runEvs l₂ (runEvs l₁ pc) := by
  simp [runEvs, List.foldl_append]

/-- Resolving a promise cannot create a rejected one. -/
theorem noRejected_resolveAt {store : List (PromSt α ε)} {i : Nat} {v : α}
    (h : noRejected store) : noRejected (resolveAt store i v) := by
  intro st hmem e
  unfold resolveAt at hmem
  split at hmem
  · rcases List.mem_or_eq_of_mem_set hmem with h1 | h1
    · exact h st h1 e
    · subst h1; simp
  · exact h st hmem e

/-- Appending a fresh pending promise cannot create a rejected one. -/
theorem noRejected_append_pending {store : List (PromSt α ε)}
    (h : noRejected store) : noRejected (store ++ [PromSt.pending]) := by
  intro st hmem e
  rcases List.mem_append.mp hmem with h1 | h1
  · exact h st h1 e
  · simp at h1; subst h1; simp

/-- Rejecting a promise that is already resolved is a no-op. -/
theorem rejectAt_of_resolved {store : List (PromSt α ε)} {i : Nat} {w : α}
    (h : store[i]? = some (PromSt.resolved w)) (e : ε) :
    rejectAt store i e = store := by
  unfold rejectAt
  rw [h]

/-- Resolving a promise keeps the store's length. -/
theorem length_resolveAt (store : List (PromSt α ε)) (i : Nat) (v : α) :
    (resolveAt store i v).length = store.length := by
  unfold resolveAt
  split
  · simp
  · rfl

/-- Resolving through the `resolve` handle leaves a promise that is already
resolved untouched. -/
theorem resolveAt_getElem_resolved {store : List (PromSt α ε)} {j i : Nat}
    {w : α} (h : store[j]? = some (PromSt.resolved w)) (v : α) :
    (resolveAt store i v)[j]? = some (PromSt.resolved w) := by
  unfold resolveAt
  split
  · rename_i hp
    by_cases hij : i = j
    · subst hij
      rw [hp] at h
      simp at h
    · rw [List.getElem?_set_ne hij]
      exact h
  · exact h

/-- Every event preserves `SafeState`. -/
theorem stepEv_safe {pc : PState α ε × CState α ε}
    (h : SafeState pc) (e : Ev α ε) : SafeState (stepEv pc e) := by
  obtain ⟨⟨w, hrej⟩, hnr, hterm⟩ := h
  cases e with
  | start =>
    refine ⟨⟨w, hrej⟩, hnr, ?_⟩
    intro e'
    show (cstart pc.1).term ≠ some (Outcome.errored e')
    unfold cstart
    split <;> simp
  | emit v =>
    refine ⟨⟨w, ?_⟩, ?_, hterm⟩
    · show (resolveAt pc.1.store pc.1.resolveTgt v ++ [.pending])[pc.1.rejectTgt]? =
        some (PromSt.resolved w)
      have hlt : pc.1.rejectTgt < pc.1.store.length :=
        (List.getElem?_eq_some.mp hrej).1
      rw [List.getElem?_append_left
        ((length_resolveAt pc.1.store pc.1.resolveTgt v).symm ▸ hlt)]
      exact resolveAt_getElem_resolved hrej v
    · exact noRejected_append_pending (noRejected_resolveAt hnr)
  | complete =>
    exact ⟨⟨w, hrej⟩, hnr, hterm⟩
  | fail err =>
    have hfix : rejectAt pc.1.store pc.1.rejectTgt err = pc.1.store :=
      rejectAt_of_resolved hrej err
    refine ⟨⟨w, ?_⟩, ?_, hterm⟩
    · show (rejectAt pc.1.store pc.1.rejectTgt err)[pc.1.rejectTgt]? =
        some (PromSt.resolved w)
      rw [hfix]; exact hrej
    · show noRejected (rejectAt pc.1.store pc.1.rejectTgt err)
      rw [hfix]; exact hnr
  | wake =>
    refine ⟨⟨w, hrej⟩, hnr, ?_⟩
    intro e'
    show (wake pc.1 pc.2).term ≠ some (Outcome.errored e')
    cases h1 : pc.2.term with
    | some o =>
      simp only [wake, h1]
      rw [← h1]
      exact hterm e'
    | none =>
      cases h2 : pc.2.parked with
      | none => simp only [wake, h1, h2]; rw [← h1]; exact hterm e'
      | some i =>
        cases h3 : pc.1.store[i]? with
        | none => simp only [wake, h1, h2, h3]; rw [← h1]; exact hterm e'
        | some st =>
          cases st with
          | pending => simp only [wake, h1, h2, h3]; rw [← h1]; exact hterm e'
          | resolved v =>
            simp only [wake, h1, h2, h3]
            split <;> simp
          | rejected er =>
            exact absurd rfl (hnr _ (List.getElem?_mem h3) er)

/-- The invariant `SafeState` is preserved by any event sequence. -/
theorem runEvs_safe :
    ∀ (evs : List (Ev α ε)) (pc : PState α ε × CState α ε),
      SafeState pc → SafeState (runEvs evs pc) := by
  intro evs
  induction evs with
  | nil => intro pc h; exact h
  | cons e rest ih => intro pc h; exact ih (stepEv pc e) (stepEv_safe h e)

/-- After a consumed emit followed by `fail`, the invariant holds: the stale
`reject` handle points at the already-resolved first promise. -/
theorem safe_after_emit_fail (v err : Nat) :
    SafeState (runEvs [Ev.start, Ev.emit v, Ev.wake, Ev.fail err]
      (pcInit (α := Nat) (ε := Nat))) := by
  have hrun : runEvs [Ev.start, Ev.emit v, Ev.wake, Ev.fail err]
      (pcInit (α := Nat) (ε := Nat)) =
      (⟨[.resolved v, .pending], 1, 1, 0, false⟩, ⟨[v], some 1, none⟩) := rfl
  rw [hrun]
  refine ⟨⟨v, rfl⟩, ?_, by simp⟩
  intro st hmem e
  simp at hmem
  rcases hmem with h | h <;> subst h <;> simp

/-- C4: after a prior `emit` has been consumed, `fail(err)` never surfaces the
error.  `next` re-creates the promise without re-capturing the `reject`
handle, so `fail` rejects the already-settled first promise (a no-op): the
consumer stays parked on the untouched pending promise, and no continuation
of the run can ever terminate the iteration with an error. -/
theorem producer_error_after_next_never_surfaces :
    (∀ (v err : Nat),
      runEvs [.start, .emit v, .wake, .fail err, .wake]
          (pcInit (α := Nat) (ε := Nat)) =
        (⟨[.resolved v, .pending], 1, 1, 0, false⟩, ⟨[v], some 1, none⟩)) ∧
    (∀ (v err e : Nat) (rest : List (Ev Nat Nat)),
      (runEvs ([Ev.start, Ev.emit v, Ev.wake, Ev.fail err] ++ rest)
          (pcInit (α := Nat) (ε := Nat))).2.term ≠
        some (Outcome.errored e)) := by
  constructor
  · intro v err; rfl
  · intro v err e rest
    rw [runEvs_append]
    exact (runEvs_safe rest _ (safe_after_emit_fail v err)).2.2 e

/-- C5 counterexample: `emit(1)` then `emit(2)` before any consumer pull, then
consuming once, does not yield `2`: nothing is yielded at all — the consumer
parks on the fresh pending promise that the second emit installed. -/
theorem producer_emit_emit_consume_counterexample :
    (runEvs [.emit 1, .emit 2, .start, .wake]
        (pcInit (α := Nat) (ε := Nat))).2.obs ≠ [2] ∧
    (runEvs [.emit 1, .emit 2, .start, .wake]
        (pcInit (α := Nat) (ε := Nat))).2.obs = [] ∧
    (runEvs [.emit 1, .emit 2, .start, .wake]
        (pcInit (α := Nat) (ε := Nat))).2.term = none := by
  refine ⟨?_, rfl, rfl⟩
  decide

/-- C5 (amended): `emit(a)` then `emit(b)` before any consumer pull, then
consuming once, yields nothing and blocks: `a` and `b` resolved the two
discarded earlier promises, so `a` is indeed never observed, but neither is
`b` — the consumer awaits the fresh pending promise installed by `emit(b)`. -/
theorem producer_emits_before_pull_never_observed :
    ∀ (a b : Nat),
      runEvs [.emit a, .emit b, .start, .wake] (pcInit (α := Nat) (ε := Nat)) =
        (⟨[.resolved a, .resolved b, .pending], 2, 2, 0, true⟩,
         ⟨[], some 2, none⟩) :=
  fun _ _ => rfl

/-- Emit events do not touch the consumer and preserve the `iterating` flag. -/
theorem runEvs_emits_consumer_fixed :
    ∀ (xs : List α) (p : PState α ε) (c : CState α ε),
      (runEvs (xs.map Ev.emit) (p, c)).2 = c ∧
      (runEvs (xs.map Ev.emit) (p, c)).1.iterating = p.iterating := by
  intro xs
  induction xs with
  | nil => intro p c; exact ⟨rfl, rfl⟩
  | cons v rest ih => intro p c; exact ih (pnext v p) c

/-- C6: `complete()` leaves the pending promise unsettled, and a consumer that
begins iterating strictly after completion — no matter how many further
`emit` calls happened in between — ends immediately, observing no values. -/
theorem producer_complete_is_silent :
    ((runEvs [.complete] (pcInit (α := Nat) (ε := Nat))).1.store[0]? =
      some PromSt.pending) ∧
    (∀ (xs : List Nat),
      (runEvs ([Ev.complete] ++ (xs.map Ev.emit ++ [Ev.start]))
          (pcInit (α := Nat) (ε := Nat))).2 = ⟨[], none, some .finished⟩) := by
  refine ⟨rfl, ?_⟩
  intro xs
  rw [runEvs_append, runEvs_append]
  obtain ⟨hc, hit⟩ :=
    runEvs_emits_consumer_fixed xs (pcomplete (pInit (α := Nat) (ε := Nat))) cInit
  have hpair :
      runEvs (xs.map Ev.emit) (pcomplete (pInit (α := Nat) (ε := Nat)), cInit) =
        ((runEvs (xs.map Ev.emit)
            (pcomplete (pInit (α := Nat) (ε := Nat)), cInit)).1,
         cInit) := by
    exact Prod.ext rfl hc
  rw [show runEvs [Ev.complete] (pcInit (α := Nat) (ε := Nat)) =
      (pcomplete (pInit (α := Nat) (ε := Nat)), cInit) from rfl]
  rw [hpair]
  show cstart _ = _
  unfold cstart
  rw [hit]
  rfl
